import Mathlib

/-!  Shallow embedding of the core data model and path/sequence operations of
the `bookmarks` asset browser, with proofs about them.

Python unicode strings are modelled as `List Char`; Python integers as `Nat`
wherever the source only handles non-negative values (frame numbers, file
sizes, modification times, flag bit-sets).  The anchored regular expressions
of `bookmarks/common.py` are specialised to executable functions with the
usual greedy/lazy backtracking semantics. -/

namespace Bookmarks

/-- Python strings are modelled as lists of characters. -/
abbrev Str := List Char

/-- Test for an ASCII decimal digit, the `[0-9]` character class of the
source's regular expressions. -/
def isDigitCh (c : Char) : Bool := 48 ≤ c.toNat && c.toNat ≤ 57

/-- Helper for `IsSequenceRegex`: does the list contain a `[` that is
followed (strictly later) by a `]`? -/
def hasOpenThenClose : Str → Bool
  | [] => false
  | c :: r => (c == '[' && r.contains ']') || hasOpenThenClose r

/-- Embeds `common.is_collapsed` (common.py:1097), i.e. a search with
`IsSequenceRegex = ^(.+?)(\[.*\])(.*)$`: the string matches iff some
non-empty prefix is followed by a `[` with a `]` somewhere after it. -/
def is_collapsed (s : Str) : Bool :=
  match s with
  | [] => false
  | _ :: rest => hasOpenThenClose rest

/-- Suffix of a list after its last `]` (the greedy `.*\]` of the
sequence-start/end regular expressions). -/
def afterLastClose (l : Str) : Str :=
  (l.reverse.takeWhile (fun c => c != ']')).reverse

/-- Embeds the search with `SequenceStartRegex = ^(.*)\[([0-9]+).*\](.*)$`
(common.py:792): the greedy leading `(.*)` picks the right-most `[` that is
followed by at least one digit and, later, a `]`; the digit group is the
maximal digit run after that `[`; `(.*)$` starts after the last `]`.
Returns the three capture groups. -/
def seqStartSplit : Str → Option (Str × Str × Str)
  | [] => none
  | c :: rest =>
    match seqStartSplit rest with
    | some (g1, d, g3) => some (c :: g1, d, g3)
    | none =>
      if c == '[' then
        let ds := rest.takeWhile isDigitCh
        let r2 := rest.drop ds.length
        if ds != [] && r2.contains ']' then
          some ([], ds, afterLastClose r2)
        else none
      else none

/-- Embeds `common.get_sequence_startpath` (common.py:1125): identity on
non-collapsed paths, otherwise the `SequenceStartRegex` substitution
`\1\2\3` (when that regex matches at all). -/
def get_sequence_startpath (path : Str) : Str :=
  if is_collapsed path then
    match seqStartSplit path with
    | some (g1, d, g3) => g1 ++ d ++ g3
    | none => path
  else path

/-- Helper for `SequenceEndRegex`: the lazy `.*?([0-9]+)\]` finds the first
maximal digit run that is immediately followed by a `]`, returning the run
and the remainder after that `]`. -/
def findRunClose : Str → Option (Str × Str)
  | [] => none
  | c :: r =>
    if isDigitCh c then
      let ds := r.takeWhile isDigitCh
      match r.drop ds.length with
      | ']' :: g3 => some (c :: ds, g3)
      | _ => findRunClose r
    else findRunClose r

/-- Embeds the search with `SequenceEndRegex = ^(.*)\[.*?([0-9]+)\](.*)$`
(common.py:795): the greedy `(.*)` picks the right-most `[` after which a
digit run immediately followed by `]` occurs, and the lazy `.*?` selects the
first such run. -/
def seqEndSplit : Str → Option (Str × Str × Str)
  | [] => none
  | c :: rest =>
    match seqEndSplit rest with
    | some (g1, d, g3) => some (c :: g1, d, g3)
    | none =>
      if c == '[' then
        match findRunClose rest with
        | some (d, g3) => some ([], d, g3)
        | none => none
      else none

/-- Embeds `common.get_sequence_endpath` (common.py:1143): identity on
non-collapsed paths, otherwise the `SequenceEndRegex` substitution
`\1\2\3` (when that regex matches at all). -/
def get_sequence_endpath (path : Str) : Str :=
  if is_collapsed path then
    match seqEndSplit path with
    | some (g1, d, g3) => g1 ++ d ++ g3
    | none => path
  else path

/-! Embedding of `common.get_ranges` (common.py:1006) and the numeral
rendering it relies on (`unicode(n).zfill(padding)` and Python string
comparison). -/

/-- Decimal digit character for a digit value below ten. -/
def digitCh (d : Nat) : Char := Char.ofNat (48 + d)

/-- Fuel-driven decimal rendering; with fuel above `n` it is the standard
decimal representation of `n` (most significant digit first). -/
def reprAux : Nat → Nat → Str
  | 0, _ => []
  | fuel + 1, n =>
    if n < 10 then [digitCh n] else reprAux fuel (n / 10) ++ [digitCh (n % 10)]

/-- Embeds Python `unicode(n)` for a non-negative integer. -/
def pyRepr (n : Nat) : Str := reprAux (n + 1) n

/-- Embeds Python `unicode(n).zfill(pad)`: left-pad the decimal rendering
with zeros to at least `pad` characters. -/
def pyZfill (pad n : Nat) : Str :=
  let r := pyRepr n
  List.replicate (pad - r.length) '0' ++ r

/-- Big-endian digit list of `n`, zero-padded to exactly `L` digits (the
canonical form used to reason about `pyZfill`). -/
def padDigits : Nat → Nat → List Nat
  | 0, _ => []
  | L + 1, n => padDigits L (n / 10) ++ [n % 10]

/-- Embeds Python 2 unicode string comparison `s < t`: lexicographic by
code point, a strict prefix being smaller. -/
def pyStrLt : Str → Str → Bool
  | [], [] => false
  | [], _ :: _ => true
  | _ :: _, [] => false
  | a :: as, b :: bs =>
    if a.toNat < b.toNat then true
    else if b.toNat < a.toNat then false
    else pyStrLt as bs

/-- Insert a value into a strictly sorted list, keeping it strictly sorted
(duplicates dropped). -/
def sortDedupIns (x : Nat) : List Nat → List Nat
  | [] => [x]
  | y :: ys =>
    if x = y then y :: ys
    else if x < y then x :: y :: ys
    else y :: sortDedupIns x ys

/-- Embeds Python `sorted(list(set(arr)))`: the strictly ascending list of
the distinct values of `arr`. -/
def sortDedup : List Nat → List Nat
  | [] => []
  | x :: xs => sortDedupIns x (sortDedup xs)

/-- Splits an ascending list into its blocks of consecutive values, the
`blocks` dictionary of `get_ranges` (a new block starts whenever the next
value is not the current value plus one). -/
def groupRuns : List Nat → List (List Nat)
  | [] => []
  | [x] => [[x]]
  | x :: y :: rest =>
    match groupRuns (y :: rest) with
    | [] => [[x]]
    | blk :: blks =>
      if y = x + 1 then (x :: blk) :: blks else [x] :: blk :: blks

/-- Renders one block of `get_ranges`:
`u'-'.join(sorted(list(set([blocks[k][0], blocks[k][-1]]))))` with every
element already passed through `zfill`. -/
def renderBlock (pad : Nat) : List Nat → Str
  | [] => []
  | x :: xs =>
    let zA := pyZfill pad x
    let zB := pyZfill pad ((x :: xs).getLastD x)
    if zA == zB then zA
    else if pyStrLt zB zA then zB ++ '-' :: zA
    else zA ++ '-' :: zB

/-- Embeds `u','.join(...)`. -/
def joinComma : List Str → Str
  | [] => []
  | [s] => s
  | s :: rest => s ++ ',' :: joinComma rest

/-- Embeds `common.get_ranges(arr, padding)` (common.py:1006). -/
def get_ranges (arr : List Nat) (padding : Nat) : Str :=
  joinComma ((groupRuns (sortDedup arr)).map (renderBlock padding))

/-- Rendering of one block as the claim words it: the zero-padded first
element, then a hyphen, then the zero-padded last element (a lone element
rendered alone).  Used only to compare `get_ranges` against the claimed
behaviour. -/
def claimRenderBlock (pad : Nat) : List Nat → Str
  | [] => []
  | x :: xs =>
    let y := (x :: xs).getLastD x
    if x = y then pyZfill pad x else pyZfill pad x ++ '-' :: pyZfill pad y

/-- The claimed behaviour of `get_ranges`: comma-separated maximal
consecutive runs, each rendered low-to-high. -/
def claimRanges (arr : List Nat) (padding : Nat) : Str :=
  joinComma ((groupRuns (sortDedup arr)).map (claimRenderBlock padding))

/-! Embedding of `common.namekey` (common.py:876), the `Name` sort-key
function.  A Python 2 iteration over a unicode string yields length-one
unicode strings, so the produced key is a list whose entries are either
integers (from digit characters) or strings. -/

/-- Embeds Python `s.split(u'/')`: split at every slash, keeping empty
segments; the empty string yields one empty segment. -/
def pySplitSlash : Str → List Str
  | [] => [[]]
  | c :: r =>
    if c == '/' then [] :: pySplitSlash r
    else
      match pySplitSlash r with
      | [] => [[c]]
      | seg :: segs => (c :: seg) :: segs

/-- Per-character conversion of `namekey`:
`int(f) if f.isdigit() else f` where `f` ranges over the characters of the
string (each a length-one string). -/
def namekeyElem (c : Char) : Sum Nat Str :=
  if isDigitCh c then Sum.inl (c.toNat - 48) else Sum.inr [c]

/-- Embeds `common.namekey` (common.py:876).  With `SORT_WITH_BASENAME`
set, only the last path segment is converted; otherwise one `Ω` per
`/`-separated segment is prepended before the conversion. -/
def namekey (sortWithBasename : Bool) (s : Str) : List (Sum Nat Str) :=
  let t :=
    if sortWithBasename then (pySplitSlash s).getLastD []
    else List.replicate (pySplitSlash s).length 'Ω' ++ s
  t.map namekeyElem

/-- Embeds Python `int(f)` on a string of decimal digits. -/
def pyStrToNat (s : Str) : Nat := s.foldl (fun a c => a * 10 + (c.toNat - 48)) 0

/-- Maximal runs of characters of the same class (digit / non-digit),
used only to state the claimed behaviour of `namekey`. -/
def classRuns : Str → List Str
  | [] => []
  | c :: r =>
    match classRuns r with
    | [] => [[c]]
    | [] :: rest => [c] :: [] :: rest
    | (d :: ds) :: rest =>
      if isDigitCh c == isDigitCh d then (c :: d :: ds) :: rest
      else [c] :: (d :: ds) :: rest

/-- The claimed behaviour of `namekey`: digit runs become integers and
non-digit runs remain strings, after the same `Ω`/basename preprocessing.
Used only to compare `namekey` against the claimed behaviour. -/
def claimNamekey (sortWithBasename : Bool) (s : Str) : List (Sum Nat Str) :=
  let t :=
    if sortWithBasename then (pySplitSlash s).getLastD []
    else List.replicate (pySplitSlash s).length 'Ω' ++ s
  (classRuns t).map (fun run =>
    if run.all isDigitCh then Sum.inl (pyStrToNat run) else Sum.inr run)

/-! Embedding of the `BaseListWidget` flag operations (baselistwidget.py):
`toggle_favourite`, `toggle_archived`, `active_index` and
`activate_current_index`.  The Qt item flags are a bit-set in the source;
`MarkedAsArchived`, `MarkedAsFavourite` and `MarkedAsActive` are distinct
bits, so the flag word is modelled as a record with one `Bool` per marker
bit and a `Nat` for the remaining Qt bits. -/

structure Flags where
  base : Nat
  archived : Bool
  favourite : Bool
  active : Bool
deriving DecidableEq

/-- Embeds `QtCore.Qt.NoItemFlags` (all bits cleared). -/
def noItemFlags : Flags := ⟨0, false, false, false⟩

/-- One row of the source model: its file path (`StatusTipRole`) and its
item flags. -/
structure ListRow where
  path : Str
  flags : Flags
deriving DecidableEq

/-- Embeds `BaseListWidget.toggle_favourite` (baselistwidget.py:768) acting
on the source-model rows and the persisted `favourites` list.  `i` is the
(source) row of the index, `state` the optional explicit state.  A `none`
favourites value read from the settings coerces to the empty list in the
source, so the settings value is modelled as the list itself. -/
def toggle_favourite (rows : List ListRow) (favs : List Str) (i : Nat)
    (state : Option Bool) : List ListRow × List Str :=
  match rows[i]? with
  | none => (rows, favs)
  | some row =>
    if row.flags.archived then (rows, favs)
    else if favs.contains row.path then
      match state with
      | none => (rows.set i { row with flags := { row.flags with favourite := false } },
                 favs.erase row.path)
      | some false => (rows.set i { row with flags := { row.flags with favourite := false } },
                 favs.erase row.path)
      | some true => (rows, favs)
    else
      match state with
      | none => (rows.set i { row with flags := { row.flags with favourite := true } },
                 favs ++ [row.path])
      | some true => (rows.set i { row with flags := { row.flags with favourite := true } },
                 favs ++ [row.path])
      | some false => (rows, favs)

/-- Embeds `BaseListWidget.toggle_archived` (baselistwidget.py:814).  The
third component is the per-item `AssetSettings` store holding the persisted
`config/archived` value, modelled as a map from path to value. -/
def toggle_archived (rows : List ListRow) (favs : List Str)
    (cfg : Str → Option Bool) (i : Nat) (state : Option Bool) :
    List ListRow × List Str × (Str → Option Bool) :=
  match rows[i]? with
  | none => (rows, favs, cfg)
  | some row =>
    if row.flags.archived then
      match state with
      | some true => (rows, favs, cfg)
      | _ => (rows.set i { row with flags := { row.flags with archived := false } },
              favs, fun p => if p = row.path then some false else cfg p)
    else
      match state with
      | some false => (rows, favs, cfg)
      | _ =>
        let cfg1 : Str → Option Bool := fun p => if p = row.path then some true else cfg p
        let row1 := { row with flags := { row.flags with archived := true } }
        let rows1 := rows.set i row1
        if favs.contains row.path then
          (rows1.set i { row1 with flags := { row1.flags with favourite := false } },
           favs.erase row.path, cfg1)
        else (rows1, favs, cfg1)

/-- Embeds `BaseListWidget.active_index` (baselistwidget.py:1114): the
first row carrying the `MarkedAsActive` flag, if any. -/
def active_index : List ListRow → Option Nat
  | [] => none
  | r :: rs => if r.flags.active then some 0 else (active_index rs).map (· + 1)

/-- Embeds `BaseListWidget.activate_current_index` (baselistwidget.py:1127)
with the current index at row `i`: bail out on an invalid, flag-less,
already active or archived row; otherwise clear the `MarkedAsActive` bit of
the previously active row and set it on row `i`. -/
def activate_current_index (rows : List ListRow) (i : Nat) :
    List ListRow × Bool :=
  match rows[i]? with
  | none => (rows, false)
  | some row =>
    if row.flags = noItemFlags then (rows, false)
    else if row.flags.active then (rows, false)
    else if row.flags.archived then (rows, false)
    else
      let rows1 :=
        match active_index rows with
        | some j =>
          match rows[j]? with
          | some rj => rows.set j { rj with flags := { rj.flags with active := false } }
          | none => rows
        | none => rows
      match rows1[i]? with
      | some ri => (rows1.set i { ri with flags := { ri.flags with active := true } }, true)
      | none => (rows1, true)

/-! Embedding of `LocalSettings.verify_paths` (bookmarks/settings.py:157),
the active-path monitor.  The filesystem is a parameter `fs` telling which
path strings exist; a segment value is `none` when unset and a Python-falsy
empty string also skips the accumulation. -/

/-- One step of the accumulated path of `verify_paths`: a truthy segment is
appended after a `/` (via `get_sequence_startpath`), except that the very
first segment replaces the accumulator wholesale. -/
def accStep (idx : Nat) (path : Str) (v : Option Str) : Str :=
  match v with
  | some s =>
    if s.isEmpty then path
    else if idx = 0 then s
    else path ++ '/' :: get_sequence_startpath s
  | none => path

/-- The loop of `LocalSettings.verify_paths`: walk the segments in order,
extend the accumulated path, and clear (set to `none`) every segment whose
accumulated path does not exist. -/
def verify_paths_loop (fs : Str → Bool) : Nat → Str → List (Option Str) → List (Option Str)
  | _, _, [] => []
  | idx, path, v :: rest =>
    let path1 := accStep idx path v
    if fs path1 then v :: verify_paths_loop fs (idx + 1) path1 rest
    else none :: verify_paths_loop fs (idx + 1) path1 rest

/-- Embeds `LocalSettings.verify_paths` (bookmarks/settings.py:157) on the
ordered segment values `(server, job, root, asset, task_folder, file)`. -/
def verify_paths (fs : Str → Bool) (segs : List (Option Str)) : List (Option Str) :=
  verify_paths_loop fs 0 [] segs

/-- The claimed behaviour of the active-path monitor: walk the segments in
order testing the accumulated path, and on the first missing path clear
that segment and every segment after it. -/
def claimPrune (fs : Str → Bool) : Nat → Str → List (Option Str) → List (Option Str)
  | _, _, [] => []
  | idx, path, v :: rest =>
    let path1 := accStep idx path v
    if fs path1 then v :: claimPrune fs (idx + 1) path1 rest
    else (v :: rest).map (fun _ => none)

/-- A decidable closure property of a finite path list: every proper
prefix of a listed path that ends just before a `/` (other than a leading
one) is itself listed.  A membership test over such a list is then a
filesystem in which a path can only exist when its parent chain does. -/
def slashClosed (targets : List Str) : Bool :=
  targets.all (fun tg => (List.range tg.length).all (fun k =>
    !(tg.getD k ' ' == '/') || k == 0 || targets.contains (tg.take k)))

/-! Embedding of the enrichment workers (bookmarks/threads.py): the
`process` decorator (threads.py:64), `InfoWorker.process_data`
(threads.py:364) and `ThumbnailWorker.process_data` (threads.py:559).

The interrupt flag is raised asynchronously by `reset_queue`; it is
modelled by the index `t` of the first program point at which the raised
flag is observable (`none` when it is never raised during the call).
Observation points are numbered in execution order: 0 and 1 are the two
wrapper checks (threads.py:76,79), 2 the pre-`try` validity check, and the
in-`try` validity checks follow.  The weak reference is assumed alive
throughout (dead-reference handling is not at issue here), modification
times, sizes and flag words are `Nat`, and the `dd/MM/yyyy hh:mm` details
string is abstracted to the triple of data it renders (optional frame
count, modification time, byte size). -/

/-- A cached `DirEntry`: the data the worker reads from `entry.stat()`. -/
structure FileEntry where
  mtime : Nat
  size : Nat
deriving DecidableEq

/-- Capture groups 1-4 of `GetSequenceRegex` stored in `SequenceRole`. -/
structure SeqMatch where
  g1 : Str
  g2 : Str
  g3 : Str
  g4 : Str
deriving DecidableEq

/-- Row classification: `common.FileItem` (1100) / `common.SequenceItem`
(1200). -/
inductive ItemKind where
  | fileItem : ItemKind
  | sequenceItem : ItemKind
deriving DecidableEq

/-- One model data row (the `DataDict` the workers mutate), with the roles
the Info and Thumbnail workers touch. -/
structure DataRow where
  descriptionVal : Option Str
  todoCount : Nat
  flags : Nat
  startpathR : Str
  endpathR : Str
  statusTip : Str
  toolTip : Str
  display : Str
  edit : Str
  typeR : ItemKind
  frames : List Str
  seqm : SeqMatch
  entries : List FileEntry
  sortSize : Nat
  sortMtime : Nat
  fileDetails : Option (Option Nat × Nat × Nat)
  fileInfoLoaded : Bool
  thumbnailLoaded : Bool
deriving DecidableEq

/-- The values the per-bookmark database returns for the row: the
`description` field, the note count already extracted from the decoded
`notes` blob (0 when the blob is missing or unparseable, matching the
source default), and the extra `flags` bits. -/
structure DbEnv where
  descriptionV : Option Str
  notesCount : Nat
  flagsV : Option Nat

/-- Has the interrupt flag been raised when program point `c` runs? -/
def chkAt (t : Option Nat) (c : Nat) : Bool :=
  match t with
  | some k => decide (k ≤ c)
  | none => false

/-- The Info worker's `is_valid()` at program point `c`: false when the
interrupt is observed or the row is already latched (the reference is
modelled as always alive). -/
def invalidAt (t : Option Nat) (c : Nat) (row : DataRow) : Bool :=
  chkAt t c || row.fileInfoLoaded

/-- Embeds Python `min` on a non-empty list of `Nat` (0 on the empty
list, which the source never reaches). -/
def minNat : List Nat → Nat
  | [] => 0
  | x :: xs => xs.foldl Nat.min x

/-- Embeds Python `max` on a non-empty list of `Nat`. -/
def maxNat : List Nat → Nat
  | [] => 0
  | x :: xs => xs.foldl Nat.max x

/-- The `for entry in er` loop of the sequence branch (threads.py:491):
fold the running maximum of the modification times, checking validity once
per entry (threads.py:494) before accumulating the size.  Returns the row,
the next program point, the folded maximum and the success flag. -/
def entriesLoop (t : Option Nat) : Nat → Nat → List FileEntry → DataRow →
    DataRow × Nat × Nat × Bool
  | c, m, [], row => (row, c, m, true)
  | c, m, e :: es, row =>
    let m1 := if e.mtime > m then e.mtime else m
    if invalidAt t c row then (row, c + 1, m1, false)
    else entriesLoop t (c + 1) m1 es { row with sortSize := row.sortSize + e.size }

/-- The `SequenceItem` branch of `InfoWorker.process_data`
(threads.py:432-514), starting at program point `c` (the check at
threads.py:433). -/
def infoSeqPart (t : Option Nat) (row : DataRow) (c : Nat) : DataRow × Nat × Bool :=
  if invalidAt t c row then (row, c + 1, false)
  else
    let frs := row.frames
    let intframes := frs.map pyStrToNat
    let padding := (frs.headD []).length
    let rangestring := get_ranges intframes padding
    if invalidAt t (c + 1) row then (row, c + 2, false)
    else
      let seq := row.seqm
      let sp := seq.g1 ++ pyZfill padding (minNat intframes) ++ seq.g3 ++ '.' :: seq.g4
      let ep := seq.g1 ++ pyZfill padding (maxNat intframes) ++ seq.g3 ++ '.' :: seq.g4
      let qp := seq.g1 ++ '[' :: rangestring ++ ']' :: seq.g3 ++ '.' :: seq.g4
      let qn := (pySplitSlash qp).getLastD []
      if invalidAt t (c + 2) row then (row, c + 3, false)
      else
        let row := { row with startpathR := sp }
        if invalidAt t (c + 3) row then (row, c + 4, false)
        else
          let row := { row with endpathR := ep }
          if invalidAt t (c + 4) row then (row, c + 5, false)
          else
            let row := { row with statusTip := qp }
            if invalidAt t (c + 5) row then (row, c + 6, false)
            else
              let row := { row with toolTip := qp, display := qn }
              if invalidAt t (c + 6) row then (row, c + 7, false)
              else
                let row := { row with edit := qn }
                if invalidAt t (c + 7) row then (row, c + 8, false)
                else if invalidAt t (c + 8) row then (row, c + 9, false)
                else if row.entries.isEmpty then (row, c + 9, true)
                else
                  match entriesLoop t (c + 9) 0 row.entries row with
                  | (row, c, _, false) => (row, c, false)
                  | (row, c, m, true) =>
                    if invalidAt t c row then (row, c + 1, false)
                    else
                      let row := { row with sortMtime := m }
                      if invalidAt t (c + 1) row then (row, c + 2, false)
                      else if invalidAt t (c + 2) row then (row, c + 3, false)
                      else ({ row with
                              fileDetails := some (some intframes.length, m, row.sortSize) },
                            c + 3, true)

/-- The final check of `InfoWorker.process_data` (threads.py:542-544). -/
def infoFinal (t : Option Nat) (row : DataRow) (c : Nat) : DataRow × Nat × Bool :=
  if invalidAt t c row then (row, c + 1, false) else (row, c + 1, true)

/-- The tail of `InfoWorker.process_data` (threads.py:516-544): the check
before the `FileItem` branch, the branch itself, and the final check. -/
def infoTailPart (t : Option Nat) (row : DataRow) (c : Nat) : DataRow × Nat × Bool :=
  if invalidAt t c row then (row, c + 1, false)
  else if row.typeR = ItemKind.fileItem then
    if invalidAt t (c + 1) row then (row, c + 2, false)
    else
      match row.entries with
      | [] =>
        if invalidAt t (c + 2) row then (row, c + 3, false)
        else infoFinal t row (c + 3)
      | e :: _ =>
        let row := { row with sortMtime := e.mtime, sortSize := e.size }
        if invalidAt t (c + 2) row then (row, c + 3, false)
        else
          let row := { row with fileDetails := some (none, e.mtime, e.size) }
          if invalidAt t (c + 3) row then (row, c + 4, false)
          else infoFinal t row (c + 4)
  else infoFinal t row (c + 1)

/-- The middle of `InfoWorker.process_data` (threads.py:399-430): note
count, flag bits, then the branch dispatch. -/
def infoAfterDesc (t : Option Nat) (env : DbEnv) (row : DataRow) (c : Nat) :
    DataRow × Nat × Bool :=
  if invalidAt t c row then (row, c + 1, false)
  else
    let row := { row with todoCount := env.notesCount }
    if invalidAt t (c + 1) row then (row, c + 2, false)
    else
      let fl0 := row.flags ||| 6
      let fl :=
        match env.flagsV with
        | some v => if v ≠ 0 then fl0 ||| v else fl0
        | none => fl0
      if invalidAt t (c + 2) row then (row, c + 3, false)
      else
        let row := { row with flags := fl }
        if invalidAt t (c + 3) row then (row, c + 4, false)
        else if row.typeR = ItemKind.sequenceItem then
          match infoSeqPart t row (c + 4) with
          | (row, c, false) => (row, c, false)
          | (row, c, true) => infoTailPart t row c
        else infoTailPart t row (c + 4)

/-- The `try` block of `InfoWorker.process_data` (threads.py:381-544):
first check, then the `description` field (written only when the database
value is truthy), then the rest. -/
def infoTryBody (t : Option Nat) (env : DbEnv) (row : DataRow) : DataRow × Nat × Bool :=
  if invalidAt t 3 row then (row, 4, false)
  else
    match env.descriptionV with
    | some d =>
      if d.isEmpty then infoAfterDesc t env row 4
      else if invalidAt t 4 row then (row, 5, false)
      else infoAfterDesc t env { row with descriptionVal := some d } 5
    | none => infoAfterDesc t env row 4

/-- Embeds the body of `InfoWorker.process_data` (threads.py:364-549): a
pre-`try` validity check at program point 2 and the `try` block, whose
every exit path runs the `finally` that latches `FileInfoLoaded`
(threads.py:547-549). -/
def infoProcessData (t : Option Nat) (env : DbEnv) (row : DataRow) : DataRow × Nat × Bool :=
  if invalidAt t 2 row then (row, 3, false)
  else
    match infoTryBody t env row with
    | (row1, c, ok) => ({ row1 with fileInfoLoaded := true }, c, ok)

/-- Embeds the `process` decorator (threads.py:64) around the Info worker:
two wrapper checks before processing, then the body, then the `dataReady`
emission gate (threads.py:86-88), which re-reads the interrupt flag.  The
second component tells whether `dataReady` was emitted for the row. -/
def processInfo (t : Option Nat) (env : DbEnv) (row : DataRow) : DataRow × Bool :=
  if chkAt t 0 then (row, false)
  else if chkAt t 1 then (row, false)
  else
    match infoProcessData t env row with
    | (row1, c, ok) =>
      if chkAt t c || !ok then (row1, false) else (row1, true)

/-- The outcomes of the external image calls made by the Thumbnail worker. -/
structure ThumbEnv where
  getImageOk : Bool
  bufOk : Bool
  bigFile : Bool
  makeOk : Bool
  failedOk : Bool

/-- The Thumbnail worker's `is_valid()` (threads.py:576): false when the
interrupt is observed, the thumbnail is already latched, or the row is
archived (`MarkedAsArchived = 0b1000000000`). -/
def thumbInvalidAt (t : Option Nat) (c : Nat) (row : DataRow) : Bool :=
  chkAt t c || row.thumbnailLoaded || (row.flags &&& 512 != 0)

/-- Embeds the body of `ThumbnailWorker.process_data` (threads.py:559-641):
three pre-`try` validity checks (threads.py:577,580,583), a `try` block
without further validity checks whose result depends only on the external
image calls, and a `finally` that latches `ThumbnailLoaded`
(threads.py:639-641). -/
def thumbProcessData (t : Option Nat) (env : ThumbEnv) (row : DataRow) : DataRow × Nat × Bool :=
  if thumbInvalidAt t 2 row then (row, 3, false)
  else if thumbInvalidAt t 3 row then (row, 4, false)
  else if thumbInvalidAt t 4 row then (row, 5, false)
  else
    let ok :=
      if env.getImageOk then true
      else if !env.bufOk then true
      else if env.bigFile then false
      else if env.makeOk then true
      else if env.failedOk then true
      else false
    ({ row with thumbnailLoaded := true }, 5, ok)

/-- Embeds the `process` decorator around the Thumbnail worker. -/
def processThumb (t : Option Nat) (env : ThumbEnv) (row : DataRow) : DataRow × Bool :=
  if chkAt t 0 then (row, false)
  else if chkAt t 1 then (row, false)
  else
    match thumbProcessData t env row with
    | (row1, c, ok) =>
      if chkAt t c || !ok then (row1, false) else (row1, true)

/-! Embedding of `ImageCache.get` / `ImageCache.resize_image` /
`ImageCache.get_color_average` (gwbrowser/imagecache.py:214-314).

Images are modelled by their dimensions and pixel list; float arithmetic
is modelled exactly in `ℚ` (the integer rounding applied by the Qt call
itself is outside the model).  The Qt image backend (`QImage.load`,
`convertToFormat`, `smoothScaled`) and the OpenImageIO probe are external
collaborators, supplied as a parameter record; `smoothScaled` is only
assumed to produce an image of the requested dimensions where a theorem
needs that. -/

/-- One pixel: red, green, blue, alpha components. -/
structure Px where
  r : ℚ
  g : ℚ
  b : ℚ
  a : ℚ
deriving DecidableEq

/-- An image: dimensions and pixels. -/
structure QImg where
  w : ℚ
  h : ℚ
  pixels : List Px
deriving DecidableEq

/-- A colour with alpha. -/
structure Colour where
  r : ℚ
  g : ℚ
  b : ℚ
  a : ℚ
deriving DecidableEq

/-- The external image backend used by `ImageCache.get`. -/
structure ImgBackend where
  oiioOpenOk : Str → Bool
  qload : Str → Option QImg
  convertARGB : QImg → QImg
  smoothScaled : QImg → ℚ → ℚ → QImg

/-- Embeds `ImageCache.resize_image` (gwbrowser/imagecache.py:261): scale
so that the longer side becomes `size`, the shorter side being multiplied
by the same factor. -/
def resize_image (B : ImgBackend) (image : QImg) (size : ℚ) : QImg :=
  let longer := max image.w image.h
  let factor := size / longer
  if image.w < image.h then B.smoothScaled image (image.w * factor) size
  else B.smoothScaled image size (image.h * factor)

/-- Embeds `ImageCache.get_color_average` (gwbrowser/imagecache.py:287):
the channel means over the pixels whose alpha is at least `0.01`,
defaulting to `common.SECONDARY_BACKGROUND = (60, 60, 60)` when no pixel
qualifies; the alpha is halved from the opaque 255. -/
def get_color_average (img : QImg) : Colour :=
  let px := img.pixels.filter (fun p => !(p.a < 1 / 100 : Bool))
  if px.isEmpty then ⟨60, 60, 60, 127⟩
  else
    let n : ℚ := px.length
    ⟨(px.map Px.r).sum / n, (px.map Px.g).sum / n, (px.map Px.b).sum / n, 127⟩

/-- A cache entry: either a resized image or a derived background colour. -/
abbrev CacheVal := Sum QImg Colour

/-- The `ImageCache._data` dictionary, keyed by strings; the first binding
for a key is its current value. -/
abbrev Cache := List (Str × CacheVal)

/-- The image key `u'{path}:{height}'`. -/
def cacheKey (path : Str) (height : Nat) : Str := path ++ ':' :: pyRepr height

/-- The colour key `u'{path}:BackgroundColor'`. -/
def bgKey (path : Str) : Str := path ++ (":BackgroundColor").data

/-- Embeds `ImageCache.get` (gwbrowser/imagecache.py:214): return the
cached entry when present (and `overwrite` unset); fail with `none` when
the OpenImageIO probe or the `QImage` load fails; otherwise convert,
resize, memoise the background colour and the resized image, and return
the freshly stored entry. -/
def ImageCache_get (B : ImgBackend) (cache : Cache) (path : Str) (height : Nat)
    (overwrite : Bool) : Option CacheVal × Cache :=
  let k := cacheKey path height
  match cache.lookup k, overwrite with
  | some v, false => (some v, cache)
  | _, _ =>
    if !B.oiioOpenOk path then (none, cache)
    else
      match B.qload path with
      | none => (none, cache)
      | some img0 =>
        let img1 := B.convertARGB img0
        let img2 := resize_image B img1 (height : ℚ)
        let cache1 := (bgKey path, Sum.inr (get_color_average img2)) :: cache
        let cache2 := (k, Sum.inl img2) :: cache1
        (cache2.lookup k, cache2)

/-! Theorems. -/

theorem not_collapsed_paths_id (p : Str) (h : is_collapsed p = false) :
    get_sequence_startpath p = p ∧ get_sequence_endpath p = p := by
  constructor <;> simp [get_sequence_startpath, get_sequence_endpath, h]

/-- C5 (amended): `start_path` and `end_path` are identities on
non-collapsed paths; for a collapsed path `p`, `end_path(start_path(p))`
equals `start_path(p)` whenever `start_path(p)` is no longer collapsed (in
particular for any path with a single range marker), rather than
`end_path(p)`. -/
theorem startpath_endpath_algebra (p : Str) :
    (is_collapsed p = false →
      get_sequence_startpath p = p ∧ get_sequence_endpath p = p) ∧
    (is_collapsed (get_sequence_startpath p) = false →
      get_sequence_endpath (get_sequence_startpath p) = get_sequence_startpath p) :=
  ⟨fun h => not_collapsed_paths_id p h,
   fun h => (not_collapsed_paths_id (get_sequence_startpath p) h).2⟩

/-- C5 (counterexample): for the collapsed path `a[1-3].exr`,
`end_path(start_path(p)) = a1.exr` while `end_path(p) = a3.exr`, so the
claimed round-trip `end_path(start_path(p)) = end_path(p)` fails. -/
theorem startpath_endpath_counterexample :
    is_collapsed (("a[1-3].exr").data) = true ∧
    get_sequence_endpath (get_sequence_startpath (("a[1-3].exr").data)) ≠
      get_sequence_endpath (("a[1-3].exr").data) := by decide

/-- Witness for `startpath_endpath_algebra` at the non-collapsed path
`x.exr` and the collapsed path `a[1-3].exr`. -/
theorem startpath_endpath_algebra_witness :
    get_sequence_startpath (("x.exr").data) = ("x.exr").data ∧
    get_sequence_endpath (get_sequence_startpath (("a[1-3].exr").data)) =
      get_sequence_startpath (("a[1-3].exr").data) :=
  ⟨((startpath_endpath_algebra (("x.exr").data)).1 (by decide)).1,
   (startpath_endpath_algebra (("a[1-3].exr").data)).2 (by decide)⟩

/-- C10: toggling the favourite state of a row whose archived flag is set
is a no-op, whatever explicit state is requested: both the rows and the
persisted favourites list are returned unchanged. -/
theorem toggle_favourite_archived_noop
    (rows : List ListRow) (favs : List Str) (i : Nat) (state : Option Bool)
    (row : ListRow) (hrow : rows[i]? = some row)
    (harch : row.flags.archived = true) :
    toggle_favourite rows favs i state = (rows, favs) := by
  simp [toggle_favourite, hrow, harch]

/-- Witness for `toggle_favourite_archived_noop` on a one-row model whose
row is archived and favourited. -/
theorem toggle_favourite_archived_noop_witness :
    toggle_favourite [⟨("p").data, ⟨1, true, true, false⟩⟩] [("p").data] 0 none
      = ([⟨("p").data, ⟨1, true, true, false⟩⟩], [("p").data]) :=
  toggle_favourite_archived_noop _ _ 0 none ⟨("p").data, ⟨1, true, true, false⟩⟩
    (by decide) (by decide)

/-- C1: toggling a favourited, non-archived row to archived leaves the row
archived and not favourite (other bits and the path unchanged) and removes
its path from the persisted favourites set, so the row is never both
archived and favourite. -/
theorem toggle_archived_clears_favourite
    (rows : List ListRow) (favs : List Str) (cfg : Str → Option Bool)
    (i : Nat) (row : ListRow)
    (hrow : rows[i]? = some row)
    (hfav : row.flags.favourite = true)
    (harch : row.flags.archived = false)
    (hin : row.path ∈ favs) (hnd : favs.Nodup) :
    ((toggle_archived rows favs cfg i (some true)).1)[i]? =
      some ⟨row.path, ⟨row.flags.base, true, false, row.flags.active⟩⟩ ∧
    row.path ∉ (toggle_archived rows favs cfg i (some true)).2.1 := by
  have hi : i < rows.length := by
    rcases List.getElem?_eq_some.mp hrow with ⟨h, _⟩
    exact h
  constructor
  · simp [toggle_archived, hrow, harch, hin, List.getElem?_set, hi]
  · simp only [toggle_archived, hrow, harch]
    simp [hin]
    intro hmem
    rw [List.Nodup.mem_erase_iff hnd] at hmem
    exact hmem.1 rfl

/-- Witness for `toggle_archived_clears_favourite` on a one-row model. -/
theorem toggle_archived_clears_favourite_witness :
    ((toggle_archived [⟨("p").data, ⟨1, false, true, false⟩⟩] [("p").data]
        (fun _ => none) 0 (some true)).1)[0]? =
      some ⟨("p").data, ⟨1, true, false, false⟩⟩ ∧
    ("p").data ∉ (toggle_archived [⟨("p").data, ⟨1, false, true, false⟩⟩]
        [("p").data] (fun _ => none) 0 (some true)).2.1 :=
  toggle_archived_clears_favourite _ _ _ 0 ⟨("p").data, ⟨1, false, true, false⟩⟩
    (by decide) (by decide) (by decide) (by decide) (by decide)

theorem active_index_eq (rows : List ListRow) (j : Nat) (a : ListRow)
    (ha : rows[j]? = some a) (haact : a.flags.active = true)
    (huniq : ∀ k rk, rows[k]? = some rk → rk.flags.active = true → k = j) :
    active_index rows = some j := by
  induction rows generalizing j with
  | nil => simp at ha
  | cons r rs ih =>
    cases hract : r.flags.active with
    | true =>
      have h0 : 0 = j := huniq 0 r (by simp) hract
      subst h0
      simp [active_index, hract]
    | false =>
      have hj : j ≠ 0 := by
        intro h
        subst h
        simp only [List.getElem?_cons_zero, Option.some_inj] at ha
        subst ha
        rw [hract] at haact
        exact Bool.false_ne_true haact
      obtain ⟨j1, rfl⟩ : ∃ j1, j = j1 + 1 := ⟨j - 1, by omega⟩
      have ha1 : rs[j1]? = some a := by simpa using ha
      have huniq1 : ∀ k rk, rs[k]? = some rk → rk.flags.active = true → k = j1 := by
        intro k rk hk hact
        have := huniq (k + 1) rk (by simpa using hk) hact
        omega
      simp [active_index, hract, ih j1 ha1 huniq1]

/-- C2: in a tier where exactly one row `a` (at position `j`) carries the
active flag, activating a different selectable, non-archived, non-active
row at position `i` leaves the active flag set exactly on row `i`: the
previously active row is cleared, the current row is set, and no third row
gains the flag. -/
theorem activate_current_index_unique
    (rows : List ListRow) (i j : Nat) (bi a : ListRow)
    (hbi : rows[i]? = some bi)
    (hflags : bi.flags ≠ noItemFlags)
    (hbact : bi.flags.active = false)
    (hbarch : bi.flags.archived = false)
    (ha : rows[j]? = some a) (haact : a.flags.active = true)
    (huniq : ∀ k rk, rows[k]? = some rk → rk.flags.active = true → k = j) :
    ∀ k rk, ((activate_current_index rows i).1)[k]? = some rk →
      (rk.flags.active = true ↔ k = i) := by
  have hij : i ≠ j := by
    intro h
    subst h
    rw [hbi] at ha
    injection ha with ha
    subst ha
    rw [haact] at hbact
    exact Bool.noConfusion hbact
  have hi : i < rows.length := by
    rcases List.getElem?_eq_some.mp hbi with ⟨h, _⟩
    exact h
  have hjlen : j < rows.length := by
    rcases List.getElem?_eq_some.mp ha with ⟨h, _⟩
    exact h
  have hidx : active_index rows = some j := active_index_eq rows j a ha haact huniq
  have hset_i : (rows.set j { a with flags := { a.flags with active := false } })[i]?
      = some bi := by
    rw [List.getElem?_set_ne (by omega)]
    exact hbi
  have hres : (activate_current_index rows i).1
      = (rows.set j { a with flags := { a.flags with active := false } }).set i
          { bi with flags := { bi.flags with active := true } } := by
    simp only [activate_current_index, hbi]
    rw [if_neg hflags, if_neg (by simp [hbact]), if_neg (by simp [hbarch])]
    simp only [hidx, ha, hset_i]
  intro k rk hk
  rw [hres] at hk
  by_cases hki : k = i
  · subst hki
    rw [List.getElem?_set_eq_of_lt _ (by simpa using hi)] at hk
    injection hk with hk
    subst hk
    simp
  · rw [List.getElem?_set_ne (fun h => hki h.symm)] at hk
    by_cases hkj : k = j
    · subst hkj
      rw [List.getElem?_set_eq_of_lt _ hjlen] at hk
      injection hk with hk
      subst hk
      simp [hki]
    · rw [List.getElem?_set_ne (fun h => hkj h.symm)] at hk
      constructor
      · intro hact
        exact absurd (huniq k rk hk hact) hkj
      · intro h
        exact absurd h hki

/-- Witness for `activate_current_index_unique` on the three-row tier
`[A (active), B, C]` with row `B` activated: the new row `B` carries the
flag and the cleared row `A` does not. -/
theorem activate_current_index_unique_witness :
    ((⟨("b").data, ⟨1, false, false, true⟩⟩ : ListRow).flags.active = true ↔ 1 = 1) ∧
    ((⟨("a").data, ⟨1, false, false, false⟩⟩ : ListRow).flags.active = true ↔ 0 = 1) := by
  have huniq : ∀ k rk,
      ([⟨("a").data, ⟨1, false, false, true⟩⟩, ⟨("b").data, ⟨1, false, false, false⟩⟩,
        ⟨("c").data, ⟨1, false, false, false⟩⟩] : List ListRow)[k]? = some rk →
      rk.flags.active = true → k = 0 := by
    intro k rk hk hact
    match k with
    | 0 => rfl
    | 1 =>
      injection hk with hk
      subst hk
      exact absurd hact (by decide)
    | 2 =>
      injection hk with hk
      subst hk
      exact absurd hact (by decide)
    | k + 3 => exact absurd hk (by simp)
  have h := activate_current_index_unique
    [⟨("a").data, ⟨1, false, false, true⟩⟩, ⟨("b").data, ⟨1, false, false, false⟩⟩,
     ⟨("c").data, ⟨1, false, false, false⟩⟩] 1 0
    ⟨("b").data, ⟨1, false, false, false⟩⟩ ⟨("a").data, ⟨1, false, false, true⟩⟩
    (by decide) (by decide) (by decide) (by decide) (by decide) (by decide) huniq
  exact ⟨h 1 ⟨("b").data, ⟨1, false, false, true⟩⟩ (by decide),
         h 0 ⟨("a").data, ⟨1, false, false, false⟩⟩ (by decide)⟩

theorem accStep_ne_nil (idx : Nat) (path : Str) (v : Option Str)
    (hidx : 1 ≤ idx) (hne : path ≠ []) : accStep idx path v ≠ [] := by
  cases v with
  | none => exact hne
  | some s =>
    by_cases hs : s.isEmpty
    · simpa [accStep, hs] using hne
    · have h0 : idx ≠ 0 := by omega
      simp [accStep, hs, h0]

theorem accStep_fs_false (fs : Str → Bool)
    (hmono : ∀ p s, p ≠ [] → fs p = false → fs (p ++ '/' :: s) = false)
    (idx : Nat) (path : Str) (v : Option Str)
    (hidx : 1 ≤ idx) (hne : path ≠ []) (hfalse : fs path = false) :
    fs (accStep idx path v) = false := by
  cases v with
  | none => exact hfalse
  | some s =>
    by_cases hs : s.isEmpty
    · simpa [accStep, hs] using hfalse
    · have h0 : idx ≠ 0 := by omega
      simpa [accStep, hs, h0] using hmono path (get_sequence_startpath s) hne hfalse

theorem verify_paths_loop_dead (fs : Str → Bool)
    (hmono : ∀ p s, p ≠ [] → fs p = false → fs (p ++ '/' :: s) = false) :
    ∀ (segs : List (Option Str)) (idx : Nat) (path : Str),
      1 ≤ idx → path ≠ [] → fs path = false →
      verify_paths_loop fs idx path segs = segs.map (fun _ => none) := by
  intro segs
  induction segs with
  | nil => intro idx path _ _ _; rfl
  | cons v rest ih =>
    intro idx path hidx hne hfalse
    have h1 := accStep_ne_nil idx path v hidx hne
    have h2 := accStep_fs_false fs hmono idx path v hidx hne hfalse
    simp only [verify_paths_loop, h2, Bool.false_eq_true, if_false, List.map_cons]
    exact congrArg _ (ih (idx + 1) _ (by omega) h1 h2)

theorem verify_paths_loop_eq_claim (fs : Str → Bool)
    (hmono : ∀ p s, p ≠ [] → fs p = false → fs (p ++ '/' :: s) = false) :
    ∀ (segs : List (Option Str)) (idx : Nat) (path : Str),
      1 ≤ idx → path ≠ [] →
      verify_paths_loop fs idx path segs = claimPrune fs idx path segs := by
  intro segs
  induction segs with
  | nil => intro idx path _ _; rfl
  | cons v rest ih =>
    intro idx path hidx hne
    have h1 := accStep_ne_nil idx path v hidx hne
    cases hfs : fs (accStep idx path v) with
    | true =>
      simp only [verify_paths_loop, claimPrune, hfs, if_true]
      exact congrArg _ (ih (idx + 1) _ (by omega) h1)
    | false =>
      simp only [verify_paths_loop, claimPrune, hfs, Bool.false_eq_true, if_false,
        List.map_cons]
      exact congrArg _ (verify_paths_loop_dead fs hmono rest (idx + 1) _ (by omega) h1 hfs)

/-- C8: under a filesystem in which a path cannot exist when its parent
prefix does not (`hmono`), and with the first (`server`) segment set and
non-empty, the active-path monitor walks the persisted segments in order,
testing the accumulated path for existence, and clears the first segment
whose accumulated path is missing together with every segment after it,
leaving the valid prefix untouched (`claimPrune`). -/
theorem verify_paths_prunes_suffix (fs : Str → Bool)
    (hmono : ∀ p s, p ≠ [] → fs p = false → fs (p ++ '/' :: s) = false)
    (s0 : Str) (h0 : s0.isEmpty = false) (rest : List (Option Str)) :
    verify_paths fs (some s0 :: rest) = claimPrune fs 0 [] (some s0 :: rest) := by
  have hne : s0 ≠ [] := by
    cases s0 with
    | nil => simp at h0
    | cons c cs => simp
  have hacc : accStep 0 [] (some s0) = s0 := by simp [accStep, h0]
  unfold verify_paths
  simp only [verify_paths_loop, claimPrune, hacc]
  cases hfs : fs s0 with
  | true =>
    simp only [hfs, if_true]
    exact congrArg _ (verify_paths_loop_eq_claim fs hmono rest 1 s0 (by omega) hne)
  | false =>
    simp only [hfs, Bool.false_eq_true, if_false, List.map_cons]
    exact congrArg _ (verify_paths_loop_dead fs hmono rest 1 s0 (by omega) hne hfs)

theorem slashClosed_mono (targets : List Str) (hcl : slashClosed targets = true) :
    ∀ p s, p ≠ [] → targets.contains p = false →
      targets.contains (p ++ '/' :: s) = false := by
  intro p s hp hnp
  cases hc : targets.contains (p ++ '/' :: s) with
  | false => rfl
  | true =>
    exfalso
    have hmem : (p ++ '/' :: s) ∈ targets := by simpa using hc
    have hall := (List.all_eq_true.mp hcl) _ hmem
    have hk : p.length ∈ List.range (p ++ '/' :: s).length := by
      simp [List.length_append]
    have hg := (List.all_eq_true.mp hall) _ hk
    have hgd : (p ++ '/' :: s).getD p.length ' ' = '/' := by
      rw [List.getD_append_right _ _ _ _ (Nat.le_refl _)]
      simp
    have hk0 : p.length ≠ 0 := by
      cases p with
      | nil => exact absurd rfl hp
      | cons c cs => simp
    have htake : (p ++ '/' :: s).take p.length = p := List.take_left _ _
    rw [hgd, htake] at hg
    simp only [beq_self_eq_true, Bool.not_true, Bool.false_or] at hg
    rcases Bool.or_eq_true_iff.mp hg with h | h
    · exact hk0 (by simpa using h)
    · rw [h] at hnp
      exact Bool.noConfusion hnp

/-- Witness for `verify_paths_prunes_suffix`: the claim's example, where
`/mnt/x` and `/mnt/x/foo` exist but `/mnt/x/foo/assets` does not: the
first two segments survive and `root`, `asset`, `task_folder` and `file`
are all cleared. -/
theorem verify_paths_prunes_suffix_witness :
    verify_paths
      (fun p => [("/mnt").data, ("/mnt/x").data, ("/mnt/x/foo").data].contains p)
      [some ("/mnt/x").data, some ("foo").data, some ("assets").data,
       some ("x").data, some ("scenes").data, some ("y.ma").data]
    = [some ("/mnt/x").data, some ("foo").data, none, none, none, none] := by
  have h := verify_paths_prunes_suffix
    (fun p => [("/mnt").data, ("/mnt/x").data, ("/mnt/x/foo").data].contains p)
    (slashClosed_mono _ (by decide)) (("/mnt/x").data) (by decide)
    [some ("foo").data, some ("assets").data, some ("x").data,
     some ("scenes").data, some ("y.ma").data]
  exact h.trans (by decide)

theorem pySplitSlash_ne_nil : ∀ s : Str, pySplitSlash s ≠ []
  | [] => by simp [pySplitSlash]
  | c :: r => by
    by_cases hc : c = '/'
    · simp [pySplitSlash, hc]
    · have := pySplitSlash_ne_nil r
      simp only [pySplitSlash]
      rw [if_neg (by simpa using hc)]
      cases h : pySplitSlash r with
      | nil => exact absurd h this
      | cons seg segs => simp

theorem pySplitSlash_length : ∀ s : Str, (pySplitSlash s).length = s.count '/' + 1
  | [] => by simp [pySplitSlash]
  | c :: r => by
    by_cases hc : c = '/'
    · subst hc
      simp [pySplitSlash, pySplitSlash_length r, List.count_cons]
    · have hlen := pySplitSlash_length r
      simp only [pySplitSlash]
      rw [if_neg (by simpa using hc)]
      cases h : pySplitSlash r with
      | nil => exact absurd h (pySplitSlash_ne_nil r)
      | cons seg segs =>
        rw [h] at hlen
        simp only [List.length_cons] at hlen ⊢
        rw [List.count_cons]
        simp [hc, hlen]

/-- C9 (counterexample): on the name `a12`, `namekey` converts each digit
character separately, yielding `[Ω, a, 1, 2]`, not the digit-run key
`[Ωa, 12]` the claim describes. -/
theorem namekey_runs_counterexample :
    namekey false (("a12").data) ≠ claimNamekey false (("a12").data) := by decide

/-- C9 (amended): with `SORT_WITH_BASENAME` unset, the `Name` sort key of
a path is one `Ω` entry per `/`-separated depth level followed by the
per-character conversion of the path, in which each digit character
becomes its integer value and each non-digit character remains a
one-character string (characters are converted one at a time, not as
maximal runs). -/
theorem namekey_shape (s : Str) :
    namekey false s =
      List.replicate (s.count '/' + 1) (Sum.inr [('Ω' : Char)]) ++ s.map namekeyElem := by
  simp only [namekey, if_false, Bool.false_eq_true, List.map_append,
    List.map_replicate, pySplitSlash_length]
  rfl

theorem padDigits_length : ∀ (L n : Nat), (padDigits L n).length = L
  | 0, _ => rfl
  | L + 1, n => by simp [padDigits, padDigits_length L (n / 10)]

theorem padDigits_succ_of_lt : ∀ (L n : Nat), n < 10 ^ L →
    padDigits (L + 1) n = 0 :: padDigits L n
  | 0, n, h => by
    have : n = 0 := by omega
    subst this
    rfl
  | L + 1, n, h => by
    have hdiv : n / 10 < 10 ^ L := by
      rw [Nat.div_lt_iff_lt_mul (by omega)]
      calc n < 10 ^ (L + 1) := h
        _ = 10 ^ L * 10 := by rw [Nat.pow_succ]
    show padDigits (L + 1) (n / 10) ++ [n % 10] = 0 :: (padDigits L (n / 10) ++ [n % 10])
    rw [padDigits_succ_of_lt L (n / 10) hdiv]
    rfl

theorem padDigits_add_replicate (L n : Nat) (h : n < 10 ^ L) :
    ∀ j, padDigits (j + L) n = List.replicate j 0 ++ padDigits L n := by
  intro j
  induction j with
  | zero => simp
  | succ j ih =>
    have hlt : n < 10 ^ (j + L) :=
      lt_of_lt_of_le h (Nat.pow_le_pow_right (by omega) (by omega))
    have : j + 1 + L = (j + L) + 1 := by omega
    rw [this, padDigits_succ_of_lt (j + L) n hlt, ih]
    rfl

theorem reprAux_eq : ∀ (fuel n : Nat), n < fuel →
    reprAux fuel n = (padDigits (Nat.log 10 n + 1) n).map digitCh
  | 0, n, h => absurd h (by omega)
  | fuel + 1, n, h => by
    by_cases hn : n < 10
    · have hlog : Nat.log 10 n = 0 := Nat.log_eq_zero_iff.mpr (Or.inl hn)
      have hmod : n % 10 = n := Nat.mod_eq_of_lt hn
      simp [reprAux, hn, hlog, padDigits, hmod]
    · have hge : 10 ≤ n := by omega
      have hdivlt : n / 10 < fuel := by
        have h1 : n / 10 < n := Nat.div_lt_self (by omega) (by omega)
        omega
      have hlog : Nat.log 10 n = Nat.log 10 (n / 10) + 1 := by
        have h1 := Nat.log_div_base 10 n
        have h2 : 0 < Nat.log 10 n := Nat.log_pos (by omega) hge
        omega
      have hstep :
          padDigits (Nat.log 10 n + 1) n
            = padDigits (Nat.log 10 (n / 10) + 1) (n / 10) ++ [n % 10] := by
        rw [hlog]
        rfl
      simp only [reprAux, if_neg hn, reprAux_eq fuel (n / 10) hdivlt, hstep,
        List.map_append, List.map_cons, List.map_nil]

theorem pyRepr_eq_padDigits (n : Nat) :
    pyRepr n = (padDigits (Nat.log 10 n + 1) n).map digitCh :=
  reprAux_eq (n + 1) n (by omega)

theorem pyRepr_length (n : Nat) : (pyRepr n).length = Nat.log 10 n + 1 := by
  rw [pyRepr_eq_padDigits, List.length_map, padDigits_length]

theorem log_succ_le_of_lt_pow (n pad : Nat) (hpad : 1 ≤ pad) (h : n < 10 ^ pad) :
    Nat.log 10 n + 1 ≤ pad := by
  by_cases hn : n = 0
  · subst hn
    simp [Nat.log]
    omega
  · have := (Nat.lt_pow_iff_log_lt (by omega) hn).mp h
    omega

theorem digitCh_zero : digitCh 0 = '0' := rfl

theorem pyZfill_eq_padDigits (pad n : Nat) (hpad : 1 ≤ pad) (h : n < 10 ^ pad) :
    pyZfill pad n = (padDigits pad n).map digitCh := by
  have hK : Nat.log 10 n + 1 ≤ pad := log_succ_le_of_lt_pow n pad hpad h
  have hnK : n < 10 ^ (Nat.log 10 n + 1) := Nat.lt_pow_succ_log_self (by omega) n
  have hsplit : padDigits pad n
      = List.replicate (pad - (Nat.log 10 n + 1)) 0 ++ padDigits (Nat.log 10 n + 1) n := by
    have h2 := padDigits_add_replicate (Nat.log 10 n + 1) n hnK (pad - (Nat.log 10 n + 1))
    rwa [Nat.sub_add_cancel hK] at h2
  rw [hsplit]
  simp only [pyZfill, pyRepr_length, pyRepr_eq_padDigits, List.map_append,
    List.map_replicate, digitCh_zero, List.length_map, padDigits_length]

theorem digitCh_toNat (d : Nat) (h : d < 10) : (digitCh d).toNat = 48 + d := by
  interval_cases d <;> rfl

theorem pyStrLt_irrefl : ∀ xs : Str, pyStrLt xs xs = false
  | [] => rfl
  | _ :: xs => by simp [pyStrLt, pyStrLt_irrefl xs]

theorem pyStrLt_asymm : ∀ xs ys : Str, pyStrLt xs ys = true → pyStrLt ys xs = false
  | [], [], h => by simpa [pyStrLt] using h
  | [], _ :: _, _ => rfl
  | _ :: _, [], h => by simpa [pyStrLt] using h
  | a :: as, b :: bs, h => by
    by_cases hab : a.toNat < b.toNat
    · simp only [pyStrLt]
      rw [if_neg (by omega), if_pos hab]
    · by_cases hba : b.toNat < a.toNat
      · simp only [pyStrLt] at h
        rw [if_neg hab, if_pos hba] at h
        exact Bool.noConfusion h
      · simp only [pyStrLt] at h ⊢
        rw [if_neg hab, if_neg hba] at h
        rw [if_neg hba, if_neg hab]
        exact pyStrLt_asymm as bs h

theorem pyStrLt_append_last : ∀ (xs ys : Str) (u v : Char), xs.length = ys.length →
    pyStrLt (xs ++ [u]) (ys ++ [v]) =
      (if xs = ys then decide (u.toNat < v.toNat) else pyStrLt xs ys)
  | [], [], u, v, _ => by
    by_cases huv : u.toNat < v.toNat
    · simp [pyStrLt, huv]
    · by_cases hvu : v.toNat < u.toNat
      · simp [pyStrLt, huv, hvu]
      · simp [pyStrLt, huv, hvu]
  | [], _ :: _, _, _, hlen => by simp at hlen
  | _ :: _, [], _, _, hlen => by simp at hlen
  | a :: as, b :: bs, u, v, hlen => by
    have hlen1 : as.length = bs.length := by simpa using hlen
    by_cases hab : a.toNat < b.toNat
    · have hne : (a :: as) ≠ (b :: bs) := by
        intro h
        injection h with h1 _
        subst h1
        omega
      simp [pyStrLt, hab, hne]
    · by_cases hba : b.toNat < a.toNat
      · have hne : (a :: as) ≠ (b :: bs) := by
          intro h
          injection h with h1 _
          subst h1
          omega
        simp [pyStrLt, hab, hba, hne]
      · have heq : a = b := by
          apply Char.eq_of_val_eq
          apply UInt32.ext
          show a.toNat = b.toNat
          omega
        subst heq
        have hrec := pyStrLt_append_last as bs u v hlen1
        by_cases hxs : as = bs
        · subst hxs
          simp [pyStrLt, hrec]
        · have hne : (a :: as) ≠ (a :: bs) := by
            intro h
            injection h with _ h2
            exact hxs h2
          simp [pyStrLt, hrec, hxs, hne]

theorem padDigits_lex : ∀ (L a b : Nat), a < b → b < 10 ^ L →
    pyStrLt ((padDigits L a).map digitCh) ((padDigits L b).map digitCh) = true
  | 0, a, b, hab, hb => absurd hab (by omega)
  | L + 1, a, b, hab, hb => by
    have hlen : ((padDigits L (a / 10)).map digitCh).length
        = ((padDigits L (b / 10)).map digitCh).length := by
      simp [padDigits_length]
    rw [show padDigits (L + 1) a = padDigits L (a / 10) ++ [a % 10] from rfl,
      show padDigits (L + 1) b = padDigits L (b / 10) ++ [b % 10] from rfl,
      List.map_append, List.map_append, List.map_singleton, List.map_singleton,
      pyStrLt_append_last _ _ _ _ hlen]
    by_cases hdiv : a / 10 = b / 10
    · rw [if_pos (by rw [hdiv])]
      have hmod : a % 10 < b % 10 := by omega
      rw [digitCh_toNat _ (by omega), digitCh_toNat _ (by omega)]
      simp only [decide_eq_true_eq]
      omega
    · have hdivlt : a / 10 < b / 10 := by
        have := Nat.div_le_div_right (c := 10) (Nat.le_of_lt hab)
        omega
      have hbdiv : b / 10 < 10 ^ L := by
        rw [Nat.div_lt_iff_lt_mul (by omega)]
        calc b < 10 ^ (L + 1) := hb
          _ = 10 ^ L * 10 := by rw [Nat.pow_succ]
      have ih := padDigits_lex L (a / 10) (b / 10) hdivlt hbdiv
      rw [if_neg ?hcon]
      · exact ih
      case hcon =>
        intro hcontra
        rw [hcontra, pyStrLt_irrefl] at ih
        exact Bool.noConfusion ih

theorem getLastD_self_or_mem : ∀ (xs : List Nat) (d : Nat),
    xs.getLastD d = d ∨ xs.getLastD d ∈ xs
  | [], d => Or.inl rfl
  | x :: xs, d => by
    rw [List.getLastD_cons]
    rcases getLastD_self_or_mem xs x with h | h
    · exact Or.inr (by rw [h]; exact List.mem_cons_self _ _)
    · exact Or.inr (List.mem_cons_of_mem _ h)

theorem chain_succ_head_le_getLastD : ∀ (x : Nat) (xs : List Nat),
    List.Chain' (fun p q => q = p + 1) (x :: xs) → x ≤ (x :: xs).getLastD x
  | _, [], _ => Nat.le_refl _
  | x, y :: ys, h => by
    have h2 := List.chain'_cons.mp h
    have ih := chain_succ_head_le_getLastD y ys h2.2
    rw [List.getLastD_cons, List.getLastD_cons]
    rw [List.getLastD_cons] at ih
    omega

theorem groupRuns_ne_nil (x : Nat) (xs : List Nat) : groupRuns (x :: xs) ≠ [] := by
  cases xs with
  | nil => simp [groupRuns]
  | cons y rest =>
    simp only [groupRuns]
    cases groupRuns (y :: rest) with
    | nil => simp
    | cons blk blks =>
      by_cases hy : y = x + 1 <;> simp [hy]

theorem groupRuns_join : ∀ l : List Nat, (groupRuns l).flatten = l
  | [] => rfl
  | [x] => rfl
  | x :: y :: rest => by
    have ih := groupRuns_join (y :: rest)
    simp only [groupRuns]
    cases h : groupRuns (y :: rest) with
    | nil => exact absurd h (groupRuns_ne_nil y rest)
    | cons blk blks =>
      rw [h] at ih
      show ((if y = x + 1 then (x :: blk) :: blks else [x] :: blk :: blks)).flatten
        = x :: y :: rest
      by_cases hy : y = x + 1
      · rw [if_pos hy, List.flatten_cons]
        rw [List.flatten_cons] at ih
        rw [List.cons_append, ih]
      · rw [if_neg hy, List.flatten_cons, ih]
        rfl

theorem groupRuns_head : ∀ (x : Nat) (xs : List Nat),
    ∃ cs blks, groupRuns (x :: xs) = (x :: cs) :: blks
  | _, [] => ⟨[], [], rfl⟩
  | x, y :: rest => by
    obtain ⟨cs, blks, h⟩ := groupRuns_head y rest
    by_cases hy : y = x + 1
    · refine ⟨y :: cs, blks, ?_⟩
      simp only [groupRuns]
      rw [h]
      show (if y = x + 1 then (x :: y :: cs) :: blks else [x] :: (y :: cs) :: blks)
        = (x :: y :: cs) :: blks
      rw [if_pos hy]
    · refine ⟨[], (y :: cs) :: blks, ?_⟩
      simp only [groupRuns]
      rw [h]
      show (if y = x + 1 then (x :: y :: cs) :: blks else [x] :: (y :: cs) :: blks)
        = [x] :: (y :: cs) :: blks
      rw [if_neg hy]

theorem groupRuns_chain : ∀ (l : List Nat), ∀ b ∈ groupRuns l,
    List.Chain' (fun p q => q = p + 1) b
  | [] => by simp [groupRuns]
  | [x] => by
    intro b hb
    simp only [groupRuns, List.mem_singleton] at hb
    subst hb
    simp
  | x :: y :: rest => by
    intro b hb
    have ihall := groupRuns_chain (y :: rest)
    obtain ⟨cs, blks, h⟩ := groupRuns_head y rest
    simp only [groupRuns] at hb
    rw [h] at hb
    change b ∈ (if y = x + 1 then (x :: y :: cs) :: blks else [x] :: (y :: cs) :: blks) at hb
    by_cases hy : y = x + 1
    · rw [if_pos hy] at hb
      rcases List.mem_cons.mp hb with hb1 | hb2
      · subst hb1
        have hchain := ihall (y :: cs) (by rw [h]; exact List.mem_cons_self _ _)
        exact List.chain'_cons.mpr ⟨hy, hchain⟩
      · exact ihall b (by rw [h]; exact List.mem_cons_of_mem _ hb2)
    · rw [if_neg hy] at hb
      rcases List.mem_cons.mp hb with hb1 | hb2
      · subst hb1
        simp
      · exact ihall b (by rw [h]; exact hb2)

theorem sortDedupIns_mem (a x : Nat) : ∀ l : List Nat,
    a ∈ sortDedupIns x l ↔ a = x ∨ a ∈ l
  | [] => by simp [sortDedupIns]
  | y :: ys => by
    simp only [sortDedupIns]
    by_cases hxy : x = y
    · subst hxy
      simp only [if_pos rfl]
      constructor
      · intro h
        exact Or.inr h
      · intro h
        rcases h with h | h
        · subst h
          exact List.mem_cons_self _ _
        · exact h
    · rw [if_neg hxy]
      by_cases hlt : x < y
      · rw [if_pos hlt]
        simp [List.mem_cons]
      · rw [if_neg hlt]
        simp only [List.mem_cons, sortDedupIns_mem a x ys]
        tauto

theorem sortDedup_mem (a : Nat) : ∀ l : List Nat, a ∈ sortDedup l ↔ a ∈ l
  | [] => Iff.rfl
  | x :: xs => by
    simp only [sortDedup, sortDedupIns_mem, sortDedup_mem a xs, List.mem_cons]

theorem renderBlock_eq_claim (pad : Nat) (hpad : 1 ≤ pad) :
    ∀ b : List Nat, List.Chain' (fun p q => q = p + 1) b →
      (∀ a ∈ b, a < 10 ^ pad) → renderBlock pad b = claimRenderBlock pad b := by
  intro b hchain hbound
  cases b with
  | nil => rfl
  | cons x xs =>
    by_cases hxy : x = (x :: xs).getLastD x
    · simp only [renderBlock, claimRenderBlock]
      rw [← hxy]
      simp
    · have hle := chain_succ_head_le_getLastD x xs hchain
      have hlt : x < (x :: xs).getLastD x := by omega
      have hxb : x < 10 ^ pad := hbound x (List.mem_cons_self _ _)
      have hyb : (x :: xs).getLastD x < 10 ^ pad := by
        rcases getLastD_self_or_mem (x :: xs) x with h | h
        · rw [h]
          exact hxb
        · exact hbound _ h
      have hlex : pyStrLt (pyZfill pad x) (pyZfill pad ((x :: xs).getLastD x)) = true := by
        rw [pyZfill_eq_padDigits pad x hpad hxb, pyZfill_eq_padDigits pad _ hpad hyb]
        exact padDigits_lex pad x _ hlt hyb
      have hne : pyZfill pad x ≠ pyZfill pad ((x :: xs).getLastD x) := by
        intro hcon
        rw [hcon, pyStrLt_irrefl] at hlex
        exact Bool.noConfusion hlex
      have hasym := pyStrLt_asymm _ _ hlex
      simp only [renderBlock, claimRenderBlock]
      rw [if_neg hxy]
      rw [show (pyZfill pad x == pyZfill pad ((x :: xs).getLastD x)) = false from
        beq_eq_false_iff_ne.mpr hne]
      rw [hasym]
      simp

/-- C6 (counterexample): `ranges([99, 100], 2)` renders the run backwards,
`"100-99"`, because the two zero-padded endpoint strings are joined in
lexicographic string order and `"100" < "99"` lexicographically; the
claimed low-to-high rendering would be `"99-100"`. -/
theorem get_ranges_counterexample :
    get_ranges [99, 100] 2 = ("100-99").data ∧
    claimRanges [99, 100] 2 = ("99-100").data ∧
    get_ranges [99, 100] 2 ≠ claimRanges [99, 100] 2 := by decide

/-- C6 (amended): `get_ranges` returns the comma-separated maximal
consecutive runs of the distinct sorted values, each run rendered as its
two zero-padded endpoints joined by `-` in lexicographic string order (a
lone element rendered alone); whenever the padding is at least 1 and wide
enough for every element (`a < 10 ^ pad`), the lexicographic order agrees
with the numeric order, so each run is rendered low-to-high exactly as the
claim states — in particular on the claim's example inputs. -/
theorem get_ranges_eq_claim (arr : List Nat) (pad : Nat) (hpad : 1 ≤ pad)
    (hbound : ∀ a ∈ arr, a < 10 ^ pad) :
    get_ranges arr pad = claimRanges arr pad := by
  unfold get_ranges claimRanges
  have hmap : ∀ b ∈ groupRuns (sortDedup arr),
      renderBlock pad b = claimRenderBlock pad b := by
    intro b hb
    refine renderBlock_eq_claim pad hpad b (groupRuns_chain _ b hb) ?_
    intro a ha
    have hj : a ∈ (groupRuns (sortDedup arr)).flatten := List.mem_flatten.mpr ⟨b, hb, ha⟩
    rw [groupRuns_join] at hj
    exact hbound a ((sortDedup_mem a arr).mp hj)
  rw [List.map_congr_left hmap]

/-- Witness for `get_ranges_eq_claim` at the claim's example inputs. -/
theorem get_ranges_eq_claim_witness :
    get_ranges [1, 2, 3, 5, 7, 8, 9] 3 = claimRanges [1, 2, 3, 5, 7, 8, 9] 3 ∧
    claimRanges [1, 2, 3, 5, 7, 8, 9] 3 = ("001-003,005,007-009").data ∧
    get_ranges [1, 2, 3, 5, 6, 10] 3 = ("001-003,005-006,010").data :=
  ⟨get_ranges_eq_claim [1, 2, 3, 5, 7, 8, 9] 3 (by omega) (by decide), by decide, by decide⟩

theorem entriesLoop_none : ∀ (c m : Nat) (es : List FileEntry) (row : DataRow),
    row.fileInfoLoaded = false →
    entriesLoop none c m es row =
      ({ row with sortSize := row.sortSize + (es.map FileEntry.size).sum },
       c + es.length,
       es.foldl (fun m e => if e.mtime > m then e.mtime else m) m, true)
  | c, m, [], row, _ => by simp [entriesLoop]
  | c, m, e :: es, row, hnl => by
    simp only [entriesLoop, invalidAt, chkAt, hnl, Bool.or_false, if_false,
      Bool.false_eq_true]
    rw [entriesLoop_none (c + 1) _ es _ (by simpa using hnl)]
    simp only [List.map_cons, List.sum_cons, List.length_cons, List.foldl_cons]
    rw [show row.sortSize + e.size + (es.map FileEntry.size).sum
        = row.sortSize + (e.size + (es.map FileEntry.size).sum) from by omega,
      show c + 1 + es.length = c + (es.length + 1) from by omega]

/-- C3 (counterexample): with the interrupt observed mid-row — at the
first in-`try` validity check (program point 3) of the Info worker — the
row's `FileInfoLoaded` latch IS set by the `finally` block
(threads.py:547-549), contradicting the claim that the latch is not set;
`data_ready` is suppressed as the claim states. -/
theorem info_interrupt_latch_counterexample :
    (processInfo (some 3) ⟨none, 0, none⟩
      ⟨none, 0, 0, [], [], [], [], [], [], ItemKind.fileItem, [], ⟨[], [], [], []⟩,
       [], 0, 0, none, false, false⟩).1.fileInfoLoaded = true ∧
    (processInfo (some 3) ⟨none, 0, none⟩
      ⟨none, 0, 0, [], [], [], [], [], [], ItemKind.fileItem, [], ⟨[], [], [], []⟩,
       [], 0, 0, none, false, false⟩).2 = false := by decide

/-- C3 (amended): when the interrupt fires mid-row (observed at or after
the first in-`try` check, program point 3), the field writes already
applied are kept and `data_ready` is not emitted, but the `info_loaded`
(resp. `thumbnail_loaded`) latch IS set by the worker's `finally` block;
the latch stays unset only when the interrupt is observed before the
`try` block is entered.  Concretely: (1) the Info worker's latch is set
whenever processing entered the `try` block; (2) `data_ready` is not
emitted whenever the interrupt is observed by the end of the body; (3) a
description written just before the interrupt is observed survives; and
the Thumbnail worker behaves likewise. -/
theorem worker_interrupt_behaviour
    (env : DbEnv) (tenv : ThumbEnv) (row : DataRow) (k : Nat)
    (hnl : row.fileInfoLoaded = false) (hk : 3 ≤ k) :
    ((processInfo (some k) env row).1.fileInfoLoaded = true ∧
     (k ≤ (infoProcessData (some k) env row).2.1 →
       (processInfo (some k) env row).2 = false) ∧
     (∀ d, env.descriptionV = some d → d.isEmpty = false →
       (processInfo (some 5) env row).1.descriptionVal = some d)) ∧
    (row.thumbnailLoaded = false → row.flags &&& 512 = 0 → 5 ≤ k →
      (processThumb (some k) tenv row).1.thumbnailLoaded = true ∧
      (k = 5 → (processThumb (some k) tenv row).2 = false)) := by
  have hk0 : chkAt (some k) 0 = false := by simp [chkAt]; omega
  have hk1 : chkAt (some k) 1 = false := by simp [chkAt]; omega
  have hk2 : invalidAt (some k) 2 row = false := by simp [invalidAt, chkAt, hnl]; omega
  refine ⟨⟨?_, ?_, ?_⟩, ?_⟩
  · rcases h : infoTryBody (some k) env row with ⟨row1, c, ok⟩
    simp only [processInfo, hk0, hk1, Bool.false_eq_true, if_false, infoProcessData,
      hk2, h]
    split <;> rfl
  · intro hle
    rcases h : infoTryBody (some k) env row with ⟨row1, c, ok⟩
    simp only [infoProcessData, hk2, Bool.false_eq_true, if_false, h] at hle
    simp only [processInfo, hk0, hk1, Bool.false_eq_true, if_false, infoProcessData,
      hk2, h]
    rw [if_pos (show (chkAt (some k) c || !ok) = true by simp [chkAt]; omega)]
  · intro d hd hde
    have h50 : chkAt (some 5) 0 = false := by simp [chkAt]
    have h51 : chkAt (some 5) 1 = false := by simp [chkAt]
    have h52 : invalidAt (some 5) 2 row = false := by simp [invalidAt, chkAt, hnl]
    have h53 : invalidAt (some 5) 3 row = false := by simp [invalidAt, chkAt, hnl]
    have h54 : invalidAt (some 5) 4 row = false := by simp [invalidAt, chkAt, hnl]
    have h55 : ∀ r : DataRow, invalidAt (some 5) 5 r = true := by
      intro r
      simp [invalidAt, chkAt]
    simp only [processInfo, h50, h51, Bool.false_eq_true, if_false, infoProcessData,
      h52, infoTryBody, h53, hd, hde, if_false, infoAfterDesc, h54, h55, if_true]
    simp [chkAt]
  · intro hth harch hk5
    have ht2 : thumbInvalidAt (some k) 2 row = false := by
      simp [thumbInvalidAt, chkAt, hth, harch]
      omega
    have ht3 : thumbInvalidAt (some k) 3 row = false := by
      simp [thumbInvalidAt, chkAt, hth, harch]
      omega
    have ht4 : thumbInvalidAt (some k) 4 row = false := by
      simp [thumbInvalidAt, chkAt, hth, harch]
      omega
    have hkey : ∃ R okv, thumbProcessData (some k) tenv row = (R, 5, okv) ∧
        R.thumbnailLoaded = true := by
      simp only [thumbProcessData, ht2, ht3, ht4, Bool.false_eq_true, if_false]
      exact ⟨_, _, rfl, rfl⟩
    obtain ⟨R, okv, hkey, hRl⟩ := hkey
    constructor
    · simp only [processThumb, hk0, hk1, Bool.false_eq_true, if_false, hkey]
      split <;> exact hRl
    · intro hk5eq
      subst hk5eq
      simp only [processThumb, hk0, hk1, Bool.false_eq_true, if_false, hkey]
      simp [chkAt]

/-- Witness for `worker_interrupt_behaviour` at interrupt point 5 on a
concrete row and environment: the latch is set, the freshly written
description survives, and no `data_ready` is emitted, for both workers. -/
theorem worker_interrupt_behaviour_witness :
    (processInfo (some 5) ⟨some [('d' : Char)], 2, none⟩
      ⟨none, 0, 0, [], [], [], [], [], [], ItemKind.fileItem, [], ⟨[], [], [], []⟩,
       [], 0, 0, none, false, false⟩).1.fileInfoLoaded = true ∧
    (processInfo (some 5) ⟨some [('d' : Char)], 2, none⟩
      ⟨none, 0, 0, [], [], [], [], [], [], ItemKind.fileItem, [], ⟨[], [], [], []⟩,
       [], 0, 0, none, false, false⟩).1.descriptionVal = some [('d' : Char)] ∧
    (processInfo (some 5) ⟨some [('d' : Char)], 2, none⟩
      ⟨none, 0, 0, [], [], [], [], [], [], ItemKind.fileItem, [], ⟨[], [], [], []⟩,
       [], 0, 0, none, false, false⟩).2 = false ∧
    (processThumb (some 5) ⟨false, true, false, true, true⟩
      ⟨none, 0, 0, [], [], [], [], [], [], ItemKind.fileItem, [], ⟨[], [], [], []⟩,
       [], 0, 0, none, false, false⟩).1.thumbnailLoaded = true ∧
    (processThumb (some 5) ⟨false, true, false, true, true⟩
      ⟨none, 0, 0, [], [], [], [], [], [], ItemKind.fileItem, [], ⟨[], [], [], []⟩,
       [], 0, 0, none, false, false⟩).2 = false := by
  have h := worker_interrupt_behaviour ⟨some [('d' : Char)], 2, none⟩
    ⟨false, true, false, true, true⟩
    ⟨none, 0, 0, [], [], [], [], [], [], ItemKind.fileItem, [], ⟨[], [], [], []⟩,
     [], 0, 0, none, false, false⟩ 5 (by decide) (by decide)
  refine ⟨h.1.1, h.1.2.2 [('d' : Char)] rfl (by decide), h.1.2.1 (by decide),
    (h.2 (by decide) (by decide) (by decide)).1,
    (h.2 (by decide) (by decide) (by decide)).2 rfl⟩

theorem foldl_mtime_max (es : List FileEntry) : ∀ m : Nat,
    es.foldl (fun m e => if e.mtime > m then e.mtime else m) m
      = (es.map FileEntry.mtime).foldl Nat.max m := by
  induction es with
  | nil => intro m; rfl
  | cons e es ih =>
    intro m
    simp only [List.foldl_cons, List.map_cons]
    rw [show (if e.mtime > m then e.mtime else m) = Nat.max m e.mtime from by
      rcases Nat.lt_or_ge m e.mtime with h | h
      · rw [if_pos h]
        exact (Nat.max_eq_right (Nat.le_of_lt h)).symm
      · rw [if_neg (by omega)]
        exact (Nat.max_eq_left h).symm]
    exact ih _

theorem maxNat_foldl_zero (x : Nat) (xs : List Nat) :
    (x :: xs).foldl Nat.max 0 = maxNat (x :: xs) := by
  show xs.foldl Nat.max (Nat.max 0 x) = xs.foldl Nat.max x
  rw [show Nat.max 0 x = x from Nat.max_eq_right (Nat.zero_le x)]

/-- C4: a Sequence row processed by the Info worker without interruption
keeps its `frames` list (sorted ascending by integer value, as the scanner
provides it); its `start_path` and `end_path` are the sequence groups with
the minimum resp. maximum frame value zero-padded to the width of
`frames[0]`; `sort_mtime` is the maximum modification time over the row's
directory entries and `sort_size` the sum of their sizes (the scanner
initialises it to 0); the row is latched and `data_ready` emitted. -/
theorem info_worker_sequence_enrichment
    (env : DbEnv) (row : DataRow)
    (hnl : row.fileInfoLoaded = false)
    (htype : row.typeR = ItemKind.sequenceItem)
    (f0 : Str) (fr : List Str) (hfr : row.frames = f0 :: fr)
    (hsorted : List.Chain' (fun a b => pyStrToNat a ≤ pyStrToNat b) row.frames)
    (hsize : row.sortSize = 0)
    (e0 : FileEntry) (er : List FileEntry) (hent : row.entries = e0 :: er) :
    ∃ row1, processInfo none env row = (row1, true) ∧
      row1.frames = row.frames ∧
      List.Chain' (fun a b => pyStrToNat a ≤ pyStrToNat b) row1.frames ∧
      row1.startpathR = row.seqm.g1 ++
        pyZfill f0.length (minNat (row.frames.map pyStrToNat)) ++
        row.seqm.g3 ++ '.' :: row.seqm.g4 ∧
      row1.endpathR = row.seqm.g1 ++
        pyZfill f0.length (maxNat (row.frames.map pyStrToNat)) ++
        row.seqm.g3 ++ '.' :: row.seqm.g4 ∧
      row1.sortMtime = maxNat (row.entries.map FileEntry.mtime) ∧
      row1.sortSize = (row.entries.map FileEntry.size).sum ∧
      row1.fileInfoLoaded = true := by
  have hinv : ∀ (c : Nat) (r : DataRow), invalidAt none c r = r.fileInfoLoaded := by
    intro c r
    simp [invalidAt, chkAt]
  have hne : ¬ItemKind.sequenceItem = ItemKind.fileItem := by decide
  have hsorted1 : List.Chain' (fun a b => pyStrToNat a ≤ pyStrToNat b) (f0 :: fr) := by
    rw [← hfr]
    exact hsorted
  rcases henv : env.descriptionV with _ | d
  case none =>
    simp only [processInfo, chkAt, Bool.false_eq_true, if_false, infoProcessData,
      hinv, hnl, infoTryBody, henv, infoAfterDesc, infoSeqPart, infoTailPart,
      infoFinal, htype, hfr, hent, hsize, if_true, List.isEmpty_cons,
      entriesLoop_none, List.headD_cons, if_neg hne]
    refine ⟨_, rfl, ?_⟩
    simp [hfr, hent, List.map_cons, foldl_mtime_max, hsorted1]
    rw [show (if 0 < e0.mtime then e0.mtime else 0) = e0.mtime from by split <;> omega]
    simp [maxNat]
  case some =>
    by_cases hde : d.isEmpty <;>
    · simp only [processInfo, chkAt, Bool.false_eq_true, if_false, infoProcessData,
        hinv, hnl, infoTryBody, henv, hde, infoAfterDesc, infoSeqPart, infoTailPart,
        infoFinal, htype, hfr, hent, hsize, if_true, if_false, List.isEmpty_cons,
        entriesLoop_none, List.headD_cons, if_neg hne]
      refine ⟨_, rfl, ?_⟩
      simp [hfr, hent, List.map_cons, foldl_mtime_max, hsorted1]
      rw [show (if 0 < e0.mtime then e0.mtime else 0) = e0.mtime from by split <;> omega]
      simp [maxNat]

/-- Witness for `info_worker_sequence_enrichment` on a concrete
`render.[0001-0003].exr` sequence row with two directory entries. -/
theorem info_worker_sequence_enrichment_witness :
    (processInfo none ⟨none, 0, none⟩
      ⟨none, 0, 0, [], [], [], [], [], [], ItemKind.sequenceItem,
       [("0001").data, ("0002").data, ("0003").data],
       ⟨("render.").data, ("0001").data, [], ("exr").data⟩,
       [⟨100, 10⟩, ⟨50, 20⟩], 0, 0, none, false, false⟩).2 = true ∧
    (processInfo none ⟨none, 0, none⟩
      ⟨none, 0, 0, [], [], [], [], [], [], ItemKind.sequenceItem,
       [("0001").data, ("0002").data, ("0003").data],
       ⟨("render.").data, ("0001").data, [], ("exr").data⟩,
       [⟨100, 10⟩, ⟨50, 20⟩], 0, 0, none, false, false⟩).1.startpathR
      = ("render.0001.exr").data ∧
    (processInfo none ⟨none, 0, none⟩
      ⟨none, 0, 0, [], [], [], [], [], [], ItemKind.sequenceItem,
       [("0001").data, ("0002").data, ("0003").data],
       ⟨("render.").data, ("0001").data, [], ("exr").data⟩,
       [⟨100, 10⟩, ⟨50, 20⟩], 0, 0, none, false, false⟩).1.endpathR
      = ("render.0003.exr").data ∧
    (processInfo none ⟨none, 0, none⟩
      ⟨none, 0, 0, [], [], [], [], [], [], ItemKind.sequenceItem,
       [("0001").data, ("0002").data, ("0003").data],
       ⟨("render.").data, ("0001").data, [], ("exr").data⟩,
       [⟨100, 10⟩, ⟨50, 20⟩], 0, 0, none, false, false⟩).1.sortMtime = 100 ∧
    (processInfo none ⟨none, 0, none⟩
      ⟨none, 0, 0, [], [], [], [], [], [], ItemKind.sequenceItem,
       [("0001").data, ("0002").data, ("0003").data],
       ⟨("render.").data, ("0001").data, [], ("exr").data⟩,
       [⟨100, 10⟩, ⟨50, 20⟩], 0, 0, none, false, false⟩).1.sortSize = 30 := by
  obtain ⟨row1, h1, h2, h3, h4, h5, h6, h7, h8⟩ :=
    info_worker_sequence_enrichment ⟨none, 0, none⟩
      ⟨none, 0, 0, [], [], [], [], [], [], ItemKind.sequenceItem,
       [("0001").data, ("0002").data, ("0003").data],
       ⟨("render.").data, ("0001").data, [], ("exr").data⟩,
       [⟨100, 10⟩, ⟨50, 20⟩], 0, 0, none, false, false⟩
      rfl rfl (("0001").data) [("0002").data, ("0003").data] rfl
      (by simp only [List.chain'_cons, List.chain'_singleton, and_true]
          exact ⟨by decide, by decide⟩) rfl
      ⟨100, 10⟩ [⟨50, 20⟩] rfl
  rw [h1]
  refine ⟨rfl, ?_, ?_, ?_, ?_⟩
  · rw [show ((row1, true).1) = row1 from rfl, h4]
    decide
  · rw [show ((row1, true).1) = row1 from rfl, h5]
    decide
  · rw [show ((row1, true).1) = row1 from rfl, h6]
    decide
  · rw [show ((row1, true).1) = row1 from rfl, h7]
    decide

theorem padDigits_digit_lt : ∀ (L n : Nat), ∀ d ∈ padDigits L n, d < 10
  | 0, n => by simp [padDigits]
  | L + 1, n => by
    intro d hd
    simp only [padDigits, List.mem_append, List.mem_singleton] at hd
    rcases hd with h | h
    · exact padDigits_digit_lt L (n / 10) d h
    · subst h
      omega

theorem cacheKey_ne_bgKey (path : Str) (height : Nat) :
    cacheKey path height ≠ bgKey path := by
  intro h
  unfold cacheKey bgKey at h
  have h2 : ':' :: pyRepr height = (":BackgroundColor").data :=
    List.append_cancel_left h
  rw [show (":BackgroundColor").data = ':' :: ("BackgroundColor").data from rfl] at h2
  injection h2 with _ h4
  cases hpd : padDigits (Nat.log 10 height + 1) height with
  | nil =>
    have := padDigits_length (Nat.log 10 height + 1) height
    rw [hpd] at this
    simp at this
  | cons d ds =>
    rw [pyRepr_eq_padDigits, hpd] at h4
    rw [show ("BackgroundColor").data = 'B' :: ("ackgroundColor").data from rfl] at h4
    simp only [List.map_cons, List.cons.injEq] at h4
    have hd10 : d < 10 := padDigits_digit_lt _ height d (by rw [hpd]; exact List.mem_cons_self _ _)
    have htn := digitCh_toNat d hd10
    rw [h4.1] at htn
    have : ('B' : Char).toNat = 66 := rfl
    omega

/-- C7: with `overwrite` unset, `ImageCache.get` returns the cached entry
when the key `path:height` is present; returns `none` (cache untouched)
when the OpenImageIO probe or the `QImage` load fails; and otherwise
returns and memoises the converted image resized so that its longer side
equals `height` with the aspect ratio preserved, while also memoising the
average colour of the resized image's pixels under `path:BackgroundColor`.
The Qt backend is assumed to honour the requested scale dimensions and to
preserve dimensions under format conversion. -/
theorem ImageCache_get_spec
    (B : ImgBackend) (cache : Cache) (path : Str) (height : Nat)
    (hs : ∀ img w h, (B.smoothScaled img w h).w = w ∧ (B.smoothScaled img w h).h = h)
    (hcv : ∀ img, (B.convertARGB img).w = img.w ∧ (B.convertARGB img).h = img.h)
    (hh : 0 < height) :
    (∀ v, cache.lookup (cacheKey path height) = some v →
      ImageCache_get B cache path height false = (some v, cache)) ∧
    (cache.lookup (cacheKey path height) = none → B.oiioOpenOk path = false →
      ImageCache_get B cache path height false = (none, cache)) ∧
    (cache.lookup (cacheKey path height) = none → B.oiioOpenOk path = true →
      B.qload path = none →
      ImageCache_get B cache path height false = (none, cache)) ∧
    (∀ img0, cache.lookup (cacheKey path height) = none → B.oiioOpenOk path = true →
      B.qload path = some img0 → 0 < img0.w → 0 < img0.h →
      ∃ img2 cache2,
        ImageCache_get B cache path height false = (some (Sum.inl img2), cache2) ∧
        max img2.w img2.h = (height : ℚ) ∧
        img2.w * img0.h = img2.h * img0.w ∧
        cache2.lookup (cacheKey path height) = some (Sum.inl img2) ∧
        cache2.lookup (bgKey path) = some (Sum.inr (get_color_average img2))) := by
  refine ⟨?_, ?_, ?_, ?_⟩
  · intro v hv
    simp [ImageCache_get, hv]
  · intro hnone hoiio
    simp [ImageCache_get, hnone, hoiio]
  · intro hnone hoiio hload
    simp [ImageCache_get, hnone, hoiio, hload]
  · intro img0 hnone hoiio hload hw0 hh0
    have hw1 : (B.convertARGB img0).w = img0.w := (hcv img0).1
    have hh1 : (B.convertARGB img0).h = img0.h := (hcv img0).2
    have hhq : (0 : ℚ) < (height : ℚ) := by exact_mod_cast hh
    have hbne : (bgKey path == cacheKey path height) = false :=
      beq_eq_false_iff_ne.mpr (Ne.symm (cacheKey_ne_bgKey path height))
    refine ⟨resize_image B (B.convertARGB img0) (height : ℚ),
      (cacheKey path height, Sum.inl (resize_image B (B.convertARGB img0) (height : ℚ))) ::
        (bgKey path,
          Sum.inr (get_color_average (resize_image B (B.convertARGB img0) (height : ℚ)))) ::
        cache, ?_, ?_, ?_, ?_, ?_⟩
    · simp [ImageCache_get, hnone, hoiio, hload, List.lookup]
    · rcases lt_or_ge (B.convertARGB img0).w (B.convertARGB img0).h with hwh | hwh
      · have hresize : resize_image B (B.convertARGB img0) (height : ℚ)
            = B.smoothScaled (B.convertARGB img0)
                ((B.convertARGB img0).w *
                  ((height : ℚ) / max (B.convertARGB img0).w (B.convertARGB img0).h))
                (height : ℚ) := by
          unfold resize_image
          rw [if_pos hwh]
        rw [hresize, (hs _ _ _).1, (hs _ _ _).2]
        rw [hw1, hh1] at hwh ⊢
        rw [max_eq_right (le_of_lt hwh)]
        have hle : img0.w * ((height : ℚ) / img0.h) ≤ (height : ℚ) := by
          rw [mul_div_assoc', div_le_iff₀ hh0]
          calc img0.w * (height : ℚ) ≤ img0.h * (height : ℚ) :=
                mul_le_mul_of_nonneg_right (le_of_lt hwh) (le_of_lt hhq)
            _ = (height : ℚ) * img0.h := by ring
        exact max_eq_right hle
      · have hresize : resize_image B (B.convertARGB img0) (height : ℚ)
            = B.smoothScaled (B.convertARGB img0) (height : ℚ)
                ((B.convertARGB img0).h *
                  ((height : ℚ) / max (B.convertARGB img0).w (B.convertARGB img0).h)) := by
          unfold resize_image
          rw [if_neg (not_lt.mpr hwh)]
        rw [hresize, (hs _ _ _).1, (hs _ _ _).2]
        rw [hw1, hh1] at hwh ⊢
        rw [max_eq_left hwh]
        have hle : img0.h * ((height : ℚ) / img0.w) ≤ (height : ℚ) := by
          rw [mul_div_assoc', div_le_iff₀ hw0]
          calc img0.h * (height : ℚ) ≤ img0.w * (height : ℚ) :=
                mul_le_mul_of_nonneg_right hwh (le_of_lt hhq)
            _ = (height : ℚ) * img0.w := by ring
        exact max_eq_left hle
    · rcases lt_or_ge (B.convertARGB img0).w (B.convertARGB img0).h with hwh | hwh
      · have hresize : resize_image B (B.convertARGB img0) (height : ℚ)
            = B.smoothScaled (B.convertARGB img0)
                ((B.convertARGB img0).w *
                  ((height : ℚ) / max (B.convertARGB img0).w (B.convertARGB img0).h))
                (height : ℚ) := by
          unfold resize_image
          rw [if_pos hwh]
        rw [hresize, (hs _ _ _).1, (hs _ _ _).2]
        rw [hw1, hh1] at hwh ⊢
        rw [max_eq_right (le_of_lt hwh)]
        field_simp
        ring
      · have hresize : resize_image B (B.convertARGB img0) (height : ℚ)
            = B.smoothScaled (B.convertARGB img0) (height : ℚ)
                ((B.convertARGB img0).h *
                  ((height : ℚ) / max (B.convertARGB img0).w (B.convertARGB img0).h)) := by
          unfold resize_image
          rw [if_neg (not_lt.mpr hwh)]
        rw [hresize, (hs _ _ _).1, (hs _ _ _).2]
        rw [hw1, hh1] at hwh ⊢
        rw [max_eq_left hwh]
        field_simp
        ring
    · simp [List.lookup]
    · simp [List.lookup, hbne]

/-- Witness for `ImageCache_get_spec`: on a cache miss with a loadable 2×4
image and requested height 8, the returned entry is exactly the one
memoised under the `p:8` key, and a background colour is memoised under
the `p:BackgroundColor` key. -/
theorem ImageCache_get_spec_witness :
    (ImageCache_get
      ⟨fun _ => true, fun _ => some ⟨2, 4, []⟩, fun i => i, fun i w h => ⟨w, h, i.pixels⟩⟩
      [] (("p").data) 8 false).2.lookup (cacheKey (("p").data) 8)
      = (ImageCache_get
      ⟨fun _ => true, fun _ => some ⟨2, 4, []⟩, fun i => i, fun i w h => ⟨w, h, i.pixels⟩⟩
      [] (("p").data) 8 false).1 ∧
    ((ImageCache_get
      ⟨fun _ => true, fun _ => some ⟨2, 4, []⟩, fun i => i, fun i w h => ⟨w, h, i.pixels⟩⟩
      [] (("p").data) 8 false).2.lookup (bgKey (("p").data))).isSome = true := by
  obtain ⟨img2, cache2, heq, hmax, hasp, hl1, hl2⟩ :=
    (ImageCache_get_spec
      ⟨fun _ => true, fun _ => some ⟨2, 4, []⟩, fun i => i, fun i w h => ⟨w, h, i.pixels⟩⟩
      [] (("p").data) 8
      (fun img w h => ⟨rfl, rfl⟩) (fun img => ⟨rfl, rfl⟩) (by omega)).2.2.2
      ⟨2, 4, []⟩ rfl rfl rfl (by norm_num) (by norm_num)
  rw [heq]
  exact ⟨hl1, by rw [hl2]; rfl⟩

end Bookmarks
